import Mathlib

set_option maxHeartbeats 1000000

namespace RingQ

/-- State of the Go `RingQueue[T]` struct from `queue.go`: `data` is the storage
block reachable from the `ptr` field (its length plays the role of the `cap`
field), and `len`, `ridx`, `widx` are the remaining fields. -/
structure RingQueue (α : Type) where
  data : List α
  len  : Nat
  ridx : Nat
  widx : Nat
deriving DecidableEq

variable {α : Type}

/-- The `cap` field of the Go struct (always equal to the storage block size). -/
def RingQueue.cap (q : RingQueue α) : Nat := q.data.length

/-- Go `copy(dst, src)`: overwrites the first `min |dst| |src|` slots of `dst`. -/
def goCopy (dst src : List α) : List α := src.take dst.length ++ dst.drop src.length

/-- The count returned by Go `copy(dst, src)`. -/
def goCopyN (dst src : List α) : Nat := min dst.length src.length

/-- Go `copy` through the subslice `dst[off:]` (a view reaching the end of `dst`).
A copy through a shorter view `dst[off:hi]` is `writeAt dst off (src.take (hi - off))`. -/
def writeAt (dst : List α) (off : Nat) (src : List α) : List α :=
  dst.take off ++ goCopy (dst.drop off) src

/-- `GetDataSlices` from `queue.go`: the two in-place views holding the live data,
in logical order. -/
def getDataSlices (q : RingQueue α) : List α × List α :=
  let len_end := q.ridx + q.len
  let c1_end := min q.cap len_end
  let overflow := q.len - (c1_end - q.ridx)
  ((q.data.take c1_end).drop q.ridx, q.data.take overflow)

/-- `GetFreeSlices` from `queue.go`: the two in-place views holding the free space. -/
def getFreeSlices (q : RingQueue α) : List α × List α :=
  let free := q.cap - q.len
  let free_end := q.widx + free
  let c1_end := min q.cap free_end
  let overflow := free - (c1_end - q.widx)
  ((q.data.take c1_end).drop q.widx, q.data.take overflow)

/-- The observable logical contents: concatenation of the two data views. -/
def contents (q : RingQueue α) : List α := (getDataSlices q).1 ++ (getDataSlices q).2

/-- `New` from `queue.go`; `z` is the zero value of the element type
(Go `make` zero-fills the storage). -/
def new (z : α) (initCapacity : Nat) : RingQueue α :=
  { data := List.replicate initCapacity z, len := 0, ridx := 0, widx := 0 }

/-- `Clear` from `queue.go`. -/
def clear (q : RingQueue α) : RingQueue α := { q with len := 0, ridx := 0, widx := 0 }

/-- `Release` from `queue.go`: drops the storage pointer and zeroes every field. -/
def release (_q : RingQueue α) : RingQueue α := { data := [], len := 0, ridx := 0, widx := 0 }

/-- `EnsureFreeSpace` from `queue.go`. The new block holds `len + n` slots
(Go may over-allocate; the code only uses the actual capacity, modelled exact). -/
def ensureFreeSpace (z : α) (q : RingQueue α) (n : Nat) : RingQueue α :=
  if q.cap - q.len < n then
    let ds := getDataSlices q
    let base := List.replicate (q.len + n) z
    let k := goCopyN base ds.1
    { data := writeAt (goCopy base ds.1) k ds.2, len := q.len, ridx := 0, widx := q.len }
  else q

/-- `Queue` from `queue.go`. `none` models the Go run-time panic
(out-of-range store, which also forces `cap = 0` for the following `%=`). -/
def queue (z : α) (q : RingQueue α) (v : α) : Option (RingQueue α) :=
  let q1 := ensureFreeSpace z q 1
  if q1.widx < q1.data.length then
    some { data := q1.data.set q1.widx v, len := q1.len + 1, ridx := q1.ridx,
           widx := (q1.widx + 1) % q1.cap }
  else none

/-- `QueueMany` from `queue.go`. `none` models the Go divide-by-zero panic of
`q.widx %= q.cap` when the capacity is still `0`. -/
def queueMany (z : α) (q : RingQueue α) (vals : List α) : Option (RingQueue α) :=
  let n := vals.length
  let q1 := ensureFreeSpace z q n
  let frees := getFreeSlices q1
  let nn := goCopyN frees.1 vals
  let d1 := writeAt q1.data q1.widx (vals.take frees.1.length)
  let d2 := writeAt d1 0 ((vals.drop nn).take frees.2.length)
  if q1.cap = 0 then none
  else some { data := d2, len := q1.len + n, ridx := q1.ridx, widx := (q1.widx + n) % q1.cap }

/-- `Dequeue` from `queue.go`: returns the Go pair `(val, ok)` and the new state;
`z` is the zero value returned on the empty queue. -/
def dequeue (z : α) (q : RingQueue α) : Option ((α × Bool) × RingQueue α) :=
  if 0 < q.len then
    match q.data[q.ridx]? with
    | some v => some ((v, true),
        { data := q.data, len := q.len - 1, ridx := (q.ridx + 1) % q.cap, widx := q.widx })
    | none => none
  else some ((z, false), q)

/-- `DequeueMany` from `queue.go`: builds a fresh zeroed slice of length `n`,
copies the two data views into it, and truncates to the copied count. `none`
models the Go divide-by-zero panic of `q.ridx %= q.cap` when `cap = 0`. -/
def dequeueMany (z : α) (q : RingQueue α) (n : Nat) : Option (List α × RingQueue α) :=
  let ds := getDataSlices q
  let base := List.replicate n z
  let nn1 := goCopyN base ds.1
  let v1 := goCopy base ds.1
  let nn := nn1 + goCopyN (v1.drop nn1) ds.2
  let v2 := writeAt v1 nn1 ds.2
  if q.cap = 0 then none
  else some (v2.take nn,
    { data := q.data, len := q.len - nn, ridx := (q.ridx + nn) % q.cap, widx := q.widx })

/-- A Go slice value handed to `DequeueManyInto`: `buf` is the backing storage up
to the slice's capacity (`cap(s) = buf.length`), `slen` its length (`len(s)`). -/
structure GoSlice (α : Type) where
  buf : List α
  slen : Nat
deriving DecidableEq

/-- `DequeueManyInto` from `queue.go`. The outer `none` models the Go
slice-bounds panic of `dest[:n]` when `n > cap(dest)`; the inner one the
divide-by-zero panic of `q.ridx %= q.cap` when `cap = 0`. -/
def dequeueManyInto (q : RingQueue α) (dest : GoSlice α) (n : Nat) :
    Option (Nat × RingQueue α × GoSlice α) :=
  if n ≤ dest.buf.length then
    let ds := getDataSlices q
    let k1 := goCopyN (dest.buf.take n) ds.1
    let b1 := writeAt dest.buf 0 (ds.1.take n)
    let k2 := goCopyN ((b1.drop k1).take (n - k1)) ds.2
    let b2 := writeAt b1 k1 (ds.2.take (n - k1))
    if q.cap = 0 then none
    else some (k1 + k2,
      ({ data := q.data, len := q.len - (k1 + k2), ridx := (q.ridx + (k1 + k2)) % q.cap,
         widx := q.widx },
       { buf := b2, slen := dest.slen }))
  else none

/-- `InreaseWriteIndex` from `queue.go` (name as in the source). -/
def inreaseWriteIndex (z : α) (q : RingQueue α) (n : Nat) : Option (RingQueue α) :=
  let q1 := ensureFreeSpace z q n
  if q1.cap = 0 then none
  else some { data := q1.data, len := q1.len + n, ridx := q1.ridx,
              widx := (q1.widx + n) % q1.cap }

/-- `InreaseReadIndex` from `queue.go` (name as in the source). -/
def inreaseReadIndex (q : RingQueue α) (n : Nat) : Option (Nat × RingQueue α) :=
  let nActual := min q.len n
  if q.cap = 0 then none
  else some (nActual,
    { data := q.data, len := q.len - nActual, ridx := (q.ridx + nActual) % q.cap,
      widx := q.widx })

/-- `Clone` from `queue.go`: a fresh buffer via `New(q.cap)`, the two data views
copied to its front, then `len`, `ridx = 0` and `widx = q.widx` assigned. -/
def clone (z : α) (q : RingQueue α) : RingQueue α :=
  let base := List.replicate q.cap z
  let ds := getDataSlices q
  let k := goCopyN base ds.1
  { data := writeAt (goCopy base ds.1) k ds.2, len := q.len, ridx := 0, widx := q.widx }

/-- Structural well-formedness of a buffer state: the states the Go code can
actually reach (`len` within capacity, indices reduced modulo the capacity,
all indices `0` for a zero-capacity buffer). -/
def WF (q : RingQueue α) : Prop :=
  q.len ≤ q.cap ∧ (q.ridx < q.cap ∨ q.ridx = 0) ∧ (q.widx < q.cap ∨ q.widx = 0)

instance (q : RingQueue α) : Decidable (WF q) := by unfold WF; infer_instance

/-- The ring invariant of the spec: `write_index = (read_index + length) mod capacity`
whenever the capacity is positive. -/
def Inv (q : RingQueue α) : Prop := 0 < q.cap → q.widx = (q.ridx + q.len) % q.cap

instance (q : RingQueue α) : Decidable (Inv q) := by unfold Inv; infer_instance

/-- The logical sequence stored in block `D` starting at physical offset `R`,
wrapping around, for `L` slots. -/
def rotTake (D : List α) (R L : Nat) : List α := (D.drop R ++ D.take R).take L

/-- The ring invariant holds in the state an operation produced, when it
produced one (a `none` models a Go panic, which produces no state). -/
def invOpt : Option (RingQueue α) → Prop
  | none => True
  | some q => Inv q

instance (o : Option (RingQueue α)) : Decidable (invOpt o) := by
  unfold invOpt
  cases o <;> infer_instance

/-- One operation of the interleaved workload of the model-equivalence property. -/
inductive Op (α : Type) where
  | push : α → Op α
  | pushMany : List α → Op α
  | pop : Op α
  | popMany : Nat → Op α

/-- The observable output of one workload operation. -/
inductive OpOut (α : Type) where
  | unit : OpOut α
  | popOut : α → Bool → OpOut α
  | popManyOut : List α → OpOut α
deriving DecidableEq

/-- One workload step of the ring buffer (`none` models a Go panic). -/
def qStep (z : α) (q : RingQueue α) : Op α → Option (OpOut α × RingQueue α)
  | .push v => (queue z q v).map (fun q' => (.unit, q'))
  | .pushMany vs => (queueMany z q vs).map (fun q' => (.unit, q'))
  | .pop => (dequeue z q).map (fun r => (.popOut r.1.1 r.1.2, r.2))
  | .popMany n => (dequeueMany z q n).map (fun r => (.popManyOut r.1, r.2))

/-- Running a workload on the ring buffer, collecting the outputs. -/
def qRun (z : α) (q : RingQueue α) : List (Op α) → Option (List (OpOut α) × RingQueue α)
  | [] => some ([], q)
  | op :: ops =>
    (qStep z q op).bind (fun r => (qRun z r.2 ops).map (fun s => (r.1 :: s.1, s.2)))

/-- One workload step of the plain ordered reference sequence
(append at tail, remove at head). -/
def refStep (z : α) (m : List α) : Op α → OpOut α × List α
  | .push v => (.unit, m ++ [v])
  | .pushMany vs => (.unit, m ++ vs)
  | .pop =>
    match m with
    | [] => (.popOut z false, [])
    | v :: m' => (.popOut v true, m')
  | .popMany n => (.popManyOut (m.take n), m.drop n)

/-- Running a workload on the reference sequence, collecting the outputs. -/
def refRun (z : α) (m : List α) : List (Op α) → List (OpOut α) × List α
  | [] => ([], m)
  | op :: ops =>
    let r := refStep z m op
    let s := refRun z r.2 ops
    (r.1 :: s.1, s.2)

theorem goCopy_length (dst src : List α) : (goCopy dst src).length = dst.length := by
  simp [goCopy]
  omega

theorem writeAt_length (dst : List α) (off : Nat) (src : List α) :
    (writeAt dst off src).length = dst.length := by
  simp [writeAt, goCopy]
  omega

theorem goCopy_of_le {dst src : List α} (h : src.length ≤ dst.length) :
    goCopy dst src = src ++ dst.drop src.length := by
  rw [goCopy, List.take_of_length_le h]

theorem writeAt_nil (dst : List α) (off : Nat) : writeAt dst off [] = dst := by
  simp [writeAt, goCopy]

theorem writeAt_of_le {dst src : List α} {off : Nat} (h : off + src.length ≤ dst.length) :
    writeAt dst off src = dst.take off ++ src ++ dst.drop (off + src.length) := by
  rw [writeAt, goCopy_of_le (by simp; omega), List.drop_drop]
  simp [List.append_assoc]

theorem length_ds_fst (q : RingQueue α) (hwf : WF q) :
    (getDataSlices q).1.length = min (q.cap - q.ridx) q.len := by
  obtain ⟨hL, hR, hW⟩ := hwf
  simp only [RingQueue.cap] at *
  simp [getDataSlices, RingQueue.cap]
  omega

theorem length_ds_snd (q : RingQueue α) (hwf : WF q) :
    (getDataSlices q).2.length = q.len - min (q.cap - q.ridx) q.len := by
  obtain ⟨hL, hR, hW⟩ := hwf
  simp only [RingQueue.cap] at *
  simp [getDataSlices, RingQueue.cap]
  omega

theorem length_contents (q : RingQueue α) (hwf : WF q) :
    (contents q).length = q.len := by
  have h1 := length_ds_fst q hwf
  have h2 := length_ds_snd q hwf
  obtain ⟨hL, hR, hW⟩ := hwf
  simp only [RingQueue.cap] at *
  simp [contents, h1, h2]

theorem contents_eq_rotTake (q : RingQueue α) (hwf : WF q) :
    contents q = rotTake q.data q.ridx q.len := by
  obtain ⟨hL, hR, hW⟩ := hwf
  simp only [RingQueue.cap] at *
  rcases Nat.eq_zero_or_pos q.data.length with hC | hC
  · have hd : q.data = [] := List.eq_nil_of_length_eq_zero hC
    have hL0 : q.len = 0 := by omega
    simp [contents, getDataSlices, rotTake, hd, hL0]
  · have hRC : q.ridx < q.data.length := by omega
    by_cases hc : q.ridx + q.len ≤ q.data.length
    · have h1 : min q.data.length (q.ridx + q.len) = q.ridx + q.len := by omega
      simp only [contents, getDataSlices, RingQueue.cap, h1, List.drop_take]
      have h2 : q.ridx + q.len - q.ridx = q.len := by omega
      have h3 : q.len - q.len = 0 := by omega
      rw [h2, h3]
      rw [rotTake, List.take_append_of_le_length (by simp; omega)]
      simp
    · have h1 : min q.data.length (q.ridx + q.len) = q.data.length := by omega
      simp only [contents, getDataSlices, RingQueue.cap, h1, List.take_length]
      rw [rotTake, List.take_append_eq_append_take]
      have h2 : (q.data.drop q.ridx).take q.len = q.data.drop q.ridx :=
        List.take_of_length_le (by simp; omega)
      rw [h2, List.take_take, List.length_drop]
      have h3 : min (q.len - (q.data.length - q.ridx)) q.ridx =
          q.len - (q.data.length - q.ridx) := by omega
      rw [h3]

theorem ensure_grow_data (z : α) (q : RingQueue α) (n : Nat) (hwf : WF q)
    (h : q.cap - q.len < n) :
    (ensureFreeSpace z q n).data = contents q ++ List.replicate n z := by
  have hl1 := length_ds_fst q hwf
  have hl2 := length_ds_snd q hwf
  obtain ⟨hL, hR, hW⟩ := hwf
  simp only [RingQueue.cap] at *
  unfold ensureFreeSpace
  rw [if_pos (by simp only [RingQueue.cap]; omega)]
  simp only [goCopyN, List.length_replicate]
  have hk : min (q.len + n) (getDataSlices q).1.length = (getDataSlices q).1.length := by
    omega
  rw [hk, goCopy_of_le (by simp; omega), List.drop_replicate,
    writeAt_of_le (by simp; omega), List.take_left, List.drop_append_eq_append_drop,
    List.drop_replicate, List.drop_eq_nil_of_le (by omega)]
  simp only [contents, List.nil_append, List.append_assoc]
  congr 3
  omega

theorem ensure_grow_fields (z : α) (q : RingQueue α) (n : Nat) (h : q.cap - q.len < n) :
    (ensureFreeSpace z q n).len = q.len ∧ (ensureFreeSpace z q n).ridx = 0 ∧
    (ensureFreeSpace z q n).widx = q.len := by
  unfold ensureFreeSpace
  rw [if_pos h]
  exact ⟨rfl, rfl, rfl⟩

theorem ensure_grow_cap (z : α) (q : RingQueue α) (n : Nat) (hwf : WF q)
    (h : q.cap - q.len < n) :
    (ensureFreeSpace z q n).cap = q.len + n := by
  have hd := ensure_grow_data z q n hwf h
  have hc := length_contents q hwf
  simp [RingQueue.cap, hd, hc]

theorem ensure_len (z : α) (q : RingQueue α) (n : Nat) :
    (ensureFreeSpace z q n).len = q.len := by
  unfold ensureFreeSpace
  split <;> rfl

theorem ensure_wf (z : α) (q : RingQueue α) (n : Nat) (hwf : WF q) :
    WF (ensureFreeSpace z q n) := by
  by_cases h : q.cap - q.len < n
  · obtain ⟨h1, h2, h3⟩ := ensure_grow_fields z q n h
    have hc := ensure_grow_cap z q n hwf h
    have hn : 1 ≤ n := by omega
    constructor
    · omega
    constructor
    · right
      exact h2
    · left
      omega
  · unfold ensureFreeSpace
    rw [if_neg h]
    exact hwf

theorem ensure_free (z : α) (q : RingQueue α) (n : Nat) (hwf : WF q) :
    n ≤ (ensureFreeSpace z q n).cap - (ensureFreeSpace z q n).len := by
  by_cases h : q.cap - q.len < n
  · obtain ⟨h1, h2, h3⟩ := ensure_grow_fields z q n h
    have hc := ensure_grow_cap z q n hwf h
    omega
  · unfold ensureFreeSpace
    rw [if_neg h]
    omega

theorem ensure_cap_ge (z : α) (q : RingQueue α) (n : Nat) (hwf : WF q) :
    q.cap ≤ (ensureFreeSpace z q n).cap := by
  by_cases h : q.cap - q.len < n
  · have hc := ensure_grow_cap z q n hwf h
    obtain ⟨hL, _, _⟩ := hwf
    omega
  · unfold ensureFreeSpace
    rw [if_neg h]

theorem ensure_contents (z : α) (q : RingQueue α) (n : Nat) (hwf : WF q) :
    contents (ensureFreeSpace z q n) = contents q := by
  by_cases h : q.cap - q.len < n
  · obtain ⟨h1, h2, h3⟩ := ensure_grow_fields z q n h
    have hd := ensure_grow_data z q n hwf h
    have hc := length_contents q hwf
    rw [contents_eq_rotTake _ (ensure_wf z q n hwf), rotTake, h1, h2, hd]
    simp only [List.drop_zero, List.take_zero, List.append_nil]
    rw [List.take_append_of_le_length (by omega), ← hc, List.take_length]
  · unfold ensureFreeSpace
    rw [if_neg h]

theorem ensure_inv (z : α) (q : RingQueue α) (n : Nat) (hwf : WF q) (hinv : Inv q) :
    Inv (ensureFreeSpace z q n) := by
  by_cases h : q.cap - q.len < n
  · obtain ⟨h1, h2, h3⟩ := ensure_grow_fields z q n h
    have hc := ensure_grow_cap z q n hwf h
    intro hpos
    rw [h1, h2, h3, hc]
    rw [Nat.zero_add, Nat.mod_eq_of_lt (by omega)]
  · unfold ensureFreeSpace
    rw [if_neg h]
    exact hinv

theorem rotTake_snoc (D : List α) (R L : Nat) (v : α) (hR : R < D.length)
    (hL : L < D.length) :
    rotTake (D.set ((R + L) % D.length) v) R (L + 1) = rotTake D R L ++ [v] := by
  by_cases hc : R + L < D.length
  · have h1 : (R + L) % D.length = R + L := Nat.mod_eq_of_lt hc
    rw [h1, List.set_eq_take_cons_drop v (by omega : R + L < D.length), rotTake, rotTake]
    have hA : (D.take (R + L) ++ v :: D.drop (R + L + 1)).drop R
        = (D.drop R).take L ++ v :: D.drop (R + L + 1) := by
      rw [List.drop_append_eq_append_drop, List.length_take]
      have e1 : R - min (R + L) D.length = 0 := by omega
      rw [e1, List.drop_zero, List.drop_take]
      have e2 : R + L - R = L := by omega
      rw [e2]
    have hB : (D.take (R + L) ++ v :: D.drop (R + L + 1)).take R = D.take R := by
      rw [List.take_append_of_le_length (by simp; omega), List.take_take]
      have e1 : min R (R + L) = R := by omega
      rw [e1]
    rw [hA, hB, List.append_assoc, List.take_append_eq_append_take]
    have e3 : ((D.drop R).take L).length = L := by
      simp
      omega
    rw [e3, List.take_of_length_le (by omega)]
    have e4 : L + 1 - L = 1 := by omega
    rw [e4, List.cons_append]
    rw [List.take_append_of_le_length (show L ≤ (D.drop R).length from by simp; omega)]
    simp
  · have h1 : (R + L) % D.length = R + L - D.length := by
      rw [Nat.mod_eq_sub_mod (by omega), Nat.mod_eq_of_lt (by omega)]
    rw [h1, List.set_eq_take_cons_drop v (by omega : R + L - D.length < D.length),
      rotTake, rotTake]
    set W := R + L - D.length with hWdef
    have hA : (D.take W ++ v :: D.drop (W + 1)).drop R = D.drop R := by
      rw [List.drop_append_eq_append_drop, List.length_take]
      have e1 : min W D.length = W := by omega
      rw [e1, List.drop_eq_nil_of_le (by simp; omega), List.nil_append]
      have e2 : R - W = (R - W - 1) + 1 := by omega
      rw [e2, List.drop_succ_cons, List.drop_drop]
      congr 1
      omega
    have hB : (D.take W ++ v :: D.drop (W + 1)).take R
        = D.take W ++ v :: (D.drop (W + 1)).take (R - W - 1) := by
      rw [List.take_append_eq_append_take, List.length_take]
      have e1 : min W D.length = W := by omega
      rw [e1, List.take_take]
      have e2 : min R W = W := by omega
      rw [e2]
      have e3 : R - W = (R - W - 1) + 1 := by omega
      rw [e3, List.take_succ_cons]
      simp
    rw [hA, hB, List.take_append_eq_append_take]
    rw [List.take_of_length_le (show (D.drop R).length ≤ L + 1 from by simp; omega)]
    rw [List.length_drop]
    have e4 : L + 1 - (D.length - R) = W + 1 := by omega
    rw [e4, List.take_append_eq_append_take, List.length_take]
    have e5 : min W D.length = W := by omega
    rw [e5, List.take_of_length_le (show (D.take W).length ≤ W + 1 from by simp)]
    have e6 : W + 1 - W = 1 := by omega
    rw [e6]
    rw [List.take_append_eq_append_take]
    rw [List.take_of_length_le (show (D.drop R).length ≤ L from by simp; omega)]
    rw [List.length_drop]
    have e7 : L - (D.length - R) = W := by omega
    rw [e7, List.take_take]
    have e8 : min W R = W := by omega
    rw [e8]
    simp

theorem queue_spec (z v : α) (q : RingQueue α) (hwf : WF q) (hinv : Inv q) :
    ∃ q', queue z q v = some q' ∧ WF q' ∧ Inv q' ∧
      contents q' = contents q ++ [v] ∧ q.cap ≤ q'.cap ∧ 0 < q'.cap ∧
      q'.len = q.len + 1 := by
  have hwf1 := ensure_wf z q 1 hwf
  have hinv1 := ensure_inv z q 1 hwf hinv
  have hcont1 := ensure_contents z q 1 hwf
  have hlen1 := ensure_len z q 1
  have hfree1 := ensure_free z q 1 hwf
  have hcapge := ensure_cap_ge z q 1 hwf
  set q1 := ensureFreeSpace z q 1 with hq1
  obtain ⟨hwfa, hwfb, hwfc⟩ := hwf1
  have hcl : q1.cap = q1.data.length := rfl
  have hcap1 : 0 < q1.cap := by omega
  have hridx : q1.ridx < q1.cap := by
    rcases hwfb with h | h <;> omega
  have hwidx : q1.widx < q1.data.length := by
    rcases hwfc with h | h <;> omega
  have hLlt : q1.len < q1.cap := by omega
  set q2 : RingQueue α := ⟨q1.data.set q1.widx v, q1.len + 1, q1.ridx, (q1.widx + 1) % q1.cap⟩ with hq2
  have e_len : q2.len = q1.len + 1 := rfl
  have e_ridx : q2.ridx = q1.ridx := rfl
  have e_widx : q2.widx = (q1.widx + 1) % q1.cap := rfl
  have e_data : q2.data = q1.data.set q1.widx v := rfl
  have e_cap : q2.cap = q1.cap := by
    rw [RingQueue.cap, e_data, List.length_set, hcl]
  have hwf2 : WF q2 := by
    constructor
    · rw [e_len, e_cap]
      omega
    constructor
    · rw [e_ridx, e_cap]
      left
      exact hridx
    · rw [e_widx, e_cap]
      left
      exact Nat.mod_lt _ hcap1
  have hwf1 : WF q1 := ⟨hwfa, hwfb, hwfc⟩
  have hinv2 : Inv q2 := by
    intro hpos
    rw [e_widx, e_ridx, e_len, e_cap, hinv1 hcap1, Nat.mod_add_mod]
    congr 1
  have hcont2 : contents q2 = contents q ++ [v] := by
    rw [contents_eq_rotTake q2 hwf2, e_data, e_ridx, e_len, hinv1 hcap1, hcl]
    rw [rotTake_snoc q1.data q1.ridx q1.len v (by omega) (by omega)]
    rw [← contents_eq_rotTake q1 hwf1, hcont1]
  have heq : queue z q v = some q2 := by
    rw [hq2]
    simp only [queue]
    rw [← hq1, if_pos hwidx]
  refine ⟨q2, heq, hwf2, hinv2, hcont2, ?_, ?_, ?_⟩
  · rw [e_cap]
    omega
  · rw [e_cap]
    omega
  · rw [e_len, hlen1]

theorem take_append_exact (X Y W : List α) {L n : Nat} (hX : X.length = L)
    (hY : Y.length = n) : (X ++ (Y ++ W)).take (L + n) = X ++ Y := by
  rw [← hX, List.take_append, List.take_left' hY]

theorem writeAt_zero (dst src : List α) : writeAt dst 0 src = goCopy dst src := by
  simp [writeAt]

theorem freeWrite_spec (q : RingQueue α) (vs : List α) (hwf : WF q) (hinv : Inv q)
    (hcap : 0 < q.cap) (hfit : q.len + vs.length ≤ q.cap) :
    rotTake (writeAt (writeAt q.data q.widx (vs.take (getFreeSlices q).1.length)) 0
        ((vs.drop (goCopyN (getFreeSlices q).1 vs)).take (getFreeSlices q).2.length))
      q.ridx (q.len + vs.length)
    = rotTake q.data q.ridx q.len ++ vs := by
  obtain ⟨hL, hRd, hWd⟩ := hwf
  have hcl : q.cap = q.data.length := rfl
  have hR : q.ridx < q.cap := by rcases hRd with h | h <;> omega
  have hW := hinv hcap
  rcases Nat.eq_zero_or_pos vs.length with hn0 | hn
  · have hvs : vs = [] := List.eq_nil_of_length_eq_zero hn0
    subst hvs
    simp [writeAt_nil, goCopyN]
  have hLC : q.len < q.cap := by omega
  by_cases hc : q.ridx + q.len < q.cap
  · have hWeq : q.widx = q.ridx + q.len := by
      rw [hW]
      exact Nat.mod_eq_of_lt hc
    have hf1 : (getFreeSlices q).1 = q.data.drop (q.ridx + q.len) := by
      simp only [getFreeSlices, hWeq]
      have e1 : min q.cap (q.ridx + q.len + (q.cap - q.len)) = q.cap := by omega
      rw [e1, hcl, List.take_length]
    have hf2 : (getFreeSlices q).2 = q.data.take q.ridx := by
      simp only [getFreeSlices, hWeq]
      have e1 : min q.cap (q.ridx + q.len + (q.cap - q.len)) = q.cap := by omega
      rw [e1]
      have e2 : q.cap - q.len - (q.cap - (q.ridx + q.len)) = q.ridx := by omega
      rw [e2]
    have hf1l : (getFreeSlices q).1.length = q.cap - (q.ridx + q.len) := by
      rw [hf1, List.length_drop, hcl]
    have hf2l : (getFreeSlices q).2.length = q.ridx := by
      rw [hf2, List.length_take]
      omega
    by_cases hfits : vs.length ≤ q.cap - (q.ridx + q.len)
    · have hsrc1 : vs.take (getFreeSlices q).1.length = vs := by
        rw [hf1l]
        exact List.take_of_length_le (by omega)
      have hnn : goCopyN (getFreeSlices q).1 vs = vs.length := by
        rw [goCopyN, hf1l]
        omega
      have hsrc2 : (vs.drop (goCopyN (getFreeSlices q).1 vs)).take
          (getFreeSlices q).2.length = [] := by
        rw [hnn, List.drop_eq_nil_of_le (le_refl _)]
        simp
      rw [hsrc1, hsrc2, writeAt_nil, hWeq,
        writeAt_of_le (show q.ridx + q.len + vs.length ≤ q.data.length from by omega)]
      simp only [rotTake]
      have hblk1 : (q.data.take (q.ridx + q.len) ++ vs ++
          q.data.drop (q.ridx + q.len + vs.length)).drop q.ridx
          = (q.data.drop q.ridx).take q.len ++
            (vs ++ q.data.drop (q.ridx + q.len + vs.length)) := by
        rw [List.append_assoc, List.drop_append_eq_append_drop, List.length_take]
        have e3 : q.ridx - min (q.ridx + q.len) q.data.length = 0 := by omega
        rw [e3, List.drop_zero, List.drop_take]
        have e4 : q.ridx + q.len - q.ridx = q.len := by omega
        rw [e4]
      have hblk2 : (q.data.take (q.ridx + q.len) ++ vs ++
          q.data.drop (q.ridx + q.len + vs.length)).take q.ridx
          = q.data.take q.ridx := by
        rw [List.append_assoc, List.take_append_of_le_length (by simp; omega),
          List.take_take]
        have e3 : min q.ridx (q.ridx + q.len) = q.ridx := by omega
        rw [e3]
      rw [hblk1, hblk2, List.append_assoc, List.append_assoc]
      rw [take_append_exact _ _ _ (show ((q.data.drop q.ridx).take q.len).length = q.len
        from by simp; omega) rfl]
      rw [List.take_append_of_le_length (by simp; omega)]
    · have ha : q.cap - (q.ridx + q.len) < vs.length := by omega
      have hsrc1 : vs.take (getFreeSlices q).1.length
          = vs.take (q.cap - (q.ridx + q.len)) := by
        rw [hf1l]
      have hnn : goCopyN (getFreeSlices q).1 vs = q.cap - (q.ridx + q.len) := by
        rw [goCopyN, hf1l]
        omega
      have hsrc2 : (vs.drop (goCopyN (getFreeSlices q).1 vs)).take
          (getFreeSlices q).2.length = vs.drop (q.cap - (q.ridx + q.len)) := by
        rw [hnn, hf2l]
        exact List.take_of_length_le (by simp; omega)
      rw [hsrc1, hsrc2, hWeq,
        writeAt_of_le (show q.ridx + q.len +
          (vs.take (q.cap - (q.ridx + q.len))).length ≤ q.data.length from by simp; omega)]
      have e5 : (vs.take (q.cap - (q.ridx + q.len))).length
          = q.cap - (q.ridx + q.len) := by
        simp
        omega
      rw [e5]
      have e6 : q.ridx + q.len + (q.cap - (q.ridx + q.len)) = q.data.length := by omega
      rw [e6, List.drop_length, List.append_nil, writeAt_zero,
        goCopy_of_le (by simp; omega)]
      have e7 : (vs.drop (q.cap - (q.ridx + q.len))).length
          = vs.length - (q.cap - (q.ridx + q.len)) := by simp
      rw [e7, List.drop_append_eq_append_drop, List.drop_take, List.length_take]
      set a := q.cap - (q.ridx + q.len) with hadef
      set b := vs.length - a with hbdef
      have hble : b ≤ q.ridx := by omega
      have e9 : b - min (q.ridx + q.len) q.data.length = 0 := by omega
      rw [e9, List.drop_zero]
      simp only [rotTake]
      have hdrop : (vs.drop a ++ ((q.data.drop b).take (q.ridx + q.len - b) ++
          vs.take a)).drop q.ridx
          = (q.data.drop q.ridx).take q.len ++ vs.take a := by
        rw [List.drop_append_eq_append_drop, List.drop_eq_nil_of_le (by simp; omega),
          List.nil_append, List.length_drop, ← hbdef, List.drop_append_eq_append_drop,
          List.length_take, List.length_drop]
        have e11 : q.ridx - b - min (q.ridx + q.len - b) (q.data.length - b) = 0 := by
          omega
        rw [e11, List.drop_zero, List.drop_take, List.drop_drop]
        have e12 : b + (q.ridx - b) = q.ridx := by omega
        have e13 : q.ridx + q.len - b - (q.ridx - b) = q.len := by omega
        rw [e12, e13]
      have htake : (vs.drop a ++ ((q.data.drop b).take (q.ridx + q.len - b) ++
          vs.take a)).take q.ridx
          = vs.drop a ++ (q.data.drop b).take (q.ridx - b) := by
        rw [List.take_append_eq_append_take, List.take_of_length_le (by simp; omega),
          List.length_drop, ← hbdef,
          List.take_append_of_le_length (by simp; omega), List.take_take]
        have e14 : min (q.ridx - b) (q.ridx + q.len - b) = q.ridx - b := by omega
        rw [e14]
      rw [hdrop, htake, List.append_assoc,
        ← List.append_assoc (vs.take a) (vs.drop a), List.take_append_drop,
        take_append_exact _ _ _ (show ((q.data.drop q.ridx).take q.len).length = q.len
          from by simp; omega) rfl,
        List.take_append_of_le_length (by simp; omega)]
  · have hWeq : q.widx = q.ridx + q.len - q.cap := by
      rw [hW, Nat.mod_eq_sub_mod (by omega), Nat.mod_eq_of_lt (by omega)]
    have hf1 : (getFreeSlices q).1
        = (q.data.drop (q.ridx + q.len - q.cap)).take (q.cap - q.len) := by
      simp only [getFreeSlices, hWeq]
      have e1 : min q.cap (q.ridx + q.len - q.cap + (q.cap - q.len)) = q.ridx := by
        omega
      rw [e1, List.drop_take]
      have e2 : q.ridx - (q.ridx + q.len - q.cap) = q.cap - q.len := by omega
      rw [e2]
    have hf2 : (getFreeSlices q).2 = [] := by
      simp only [getFreeSlices, hWeq]
      have e1 : min q.cap (q.ridx + q.len - q.cap + (q.cap - q.len)) = q.ridx := by
        omega
      rw [e1]
      have e2 : q.cap - q.len - (q.ridx - (q.ridx + q.len - q.cap)) = 0 := by omega
      rw [e2, List.take_zero]
    have hf1l : (getFreeSlices q).1.length = q.cap - q.len := by
      rw [hf1, List.length_take, List.length_drop]
      omega
    have hsrc1 : vs.take (getFreeSlices q).1.length = vs := by
      rw [hf1l]
      exact List.take_of_length_le (by omega)
    have hsrc2 : (vs.drop (goCopyN (getFreeSlices q).1 vs)).take
        (getFreeSlices q).2.length = [] := by
      rw [hf2]
      simp
    rw [hsrc1, hsrc2, writeAt_nil, hWeq,
      writeAt_of_le (show q.ridx + q.len - q.cap + vs.length ≤ q.data.length
        from by omega)]
    simp only [rotTake]
    set w := q.ridx + q.len - q.cap with hwdef
    have hwn : w + vs.length ≤ q.ridx := by omega
    have hdrop : (q.data.take w ++ vs ++ q.data.drop (w + vs.length)).drop q.ridx
        = q.data.drop q.ridx := by
      rw [List.append_assoc, List.drop_append_eq_append_drop,
        List.drop_eq_nil_of_le (show (q.data.take w).length ≤ q.ridx from by
          simp only [List.length_take]; omega),
        List.nil_append, List.drop_append_eq_append_drop,
        List.drop_eq_nil_of_le (show vs.length ≤
          q.ridx - (q.data.take w).length from by simp only [List.length_take]; omega),
        List.nil_append, List.drop_drop]
      congr 1
      simp only [List.length_take]
      omega
    have htake : (q.data.take w ++ vs ++ q.data.drop (w + vs.length)).take q.ridx
        = q.data.take w ++ (vs ++ (q.data.drop (w + vs.length)).take
            (q.ridx - w - vs.length)) := by
      rw [List.append_assoc, List.take_append_eq_append_take,
        List.take_of_length_le (show (q.data.take w).length ≤ q.ridx from by
          simp only [List.length_take]; omega),
        List.take_append_eq_append_take,
        List.take_of_length_le (show vs.length ≤
          q.ridx - (q.data.take w).length from by simp only [List.length_take]; omega)]
      have e14 : q.ridx - (q.data.take w).length - vs.length
          = q.ridx - w - vs.length := by
        simp only [List.length_take]
        omega
      rw [e14]
    have hRHS : (q.data.drop q.ridx ++ q.data.take q.ridx).take q.len
        = q.data.drop q.ridx ++ q.data.take w := by
      rw [List.take_append_eq_append_take,
        List.take_of_length_le (show (q.data.drop q.ridx).length ≤ q.len from by
          simp only [List.length_drop]; omega),
        List.length_drop, List.take_take]
      have e15 : (q.len - (q.data.length - q.ridx)) ⊓ q.ridx = w := by omega
      rw [e15]
    rw [hdrop, htake, hRHS, ← List.append_assoc,
      take_append_exact _ _ _ (show (q.data.drop q.ridx ++ q.data.take w).length = q.len
        from by simp only [List.length_append, List.length_drop, List.length_take]; omega) rfl]

theorem queueMany_none (z : α) (q : RingQueue α) (vs : List α)
    (hc : (ensureFreeSpace z q vs.length).cap = 0) : queueMany z q vs = none := by
  simp only [queueMany]
  rw [if_pos hc]

theorem queueMany_spec (z : α) (q : RingQueue α) (vs : List α) (hwf : WF q)
    (hinv : Inv q) (hpos : 0 < (ensureFreeSpace z q vs.length).cap) :
    ∃ q', queueMany z q vs = some q' ∧ WF q' ∧ Inv q' ∧
      contents q' = contents q ++ vs ∧ q.cap ≤ q'.cap ∧ 0 < q'.cap ∧
      q'.len = q.len + vs.length := by
  have hwf1 := ensure_wf z q vs.length hwf
  have hinv1 := ensure_inv z q vs.length hwf hinv
  have hcont1 := ensure_contents z q vs.length hwf
  have hlen1 := ensure_len z q vs.length
  have hfree1 := ensure_free z q vs.length hwf
  have hcapge := ensure_cap_ge z q vs.length hwf
  set q1 := ensureFreeSpace z q vs.length with hq1
  obtain ⟨hwfa, hwfb, hwfc⟩ := hwf1
  have hwf1 : WF q1 := ⟨hwfa, hwfb, hwfc⟩
  have hfit : q1.len + vs.length ≤ q1.cap := by omega
  set q2 : RingQueue α := ⟨writeAt (writeAt q1.data q1.widx
    (vs.take (getFreeSlices q1).1.length)) 0 ((vs.drop (goCopyN (getFreeSlices q1).1
    vs)).take (getFreeSlices q1).2.length), q1.len + vs.length, q1.ridx,
    (q1.widx + vs.length) % q1.cap⟩ with hq2
  have e_data : q2.data = writeAt (writeAt q1.data q1.widx
      (vs.take (getFreeSlices q1).1.length)) 0 ((vs.drop (goCopyN (getFreeSlices q1).1
      vs)).take (getFreeSlices q1).2.length) := rfl
  have e_len : q2.len = q1.len + vs.length := rfl
  have e_ridx : q2.ridx = q1.ridx := rfl
  have e_widx : q2.widx = (q1.widx + vs.length) % q1.cap := rfl
  have e_cap : q2.cap = q1.cap := by
    show (writeAt (writeAt q1.data q1.widx (vs.take (getFreeSlices q1).1.length)) 0
      ((vs.drop (goCopyN (getFreeSlices q1).1 vs)).take
        (getFreeSlices q1).2.length)).length = q1.data.length
    rw [writeAt_length, writeAt_length]
  have hwf2 : WF q2 := by
    constructor
    · rw [e_len, e_cap]
      omega
    constructor
    · rw [e_ridx, e_cap]
      rcases hwfb with h | h
      · left
        exact h
      · right
        exact h
    · rw [e_widx, e_cap]
      left
      exact Nat.mod_lt _ hpos
  have hinv2 : Inv q2 := by
    intro hp2
    rw [e_widx, e_ridx, e_len, e_cap, hinv1 hpos, Nat.mod_add_mod]
    congr 1
    omega
  have hcont2 : contents q2 = contents q ++ vs := by
    rw [contents_eq_rotTake q2 hwf2, e_data, e_ridx, e_len,
      freeWrite_spec q1 vs hwf1 hinv1 hpos hfit,
      ← contents_eq_rotTake q1 hwf1, hcont1]
  have heq : queueMany z q vs = some q2 := by
    rw [hq2]
    simp only [queueMany]
    rw [← hq1, if_neg (by omega)]
  refine ⟨q2, heq, hwf2, hinv2, hcont2, ?_, ?_, ?_⟩
  · rw [e_cap]
    omega
  · rw [e_cap]
    omega
  · rw [e_len, hlen1]

theorem rotTake_cons (D : List α) (R L : Nat) (v : α) (hv : D[R]? = some v)
    (h0 : 0 < L) (hL : L ≤ D.length) :
    rotTake D R L = v :: rotTake D ((R + 1) % D.length) (L - 1) := by
  have hR : R < D.length := by
    by_contra hcon
    rw [List.getElem?_eq_none (by omega)] at hv
    exact Option.noConfusion hv
  have hveq : D[R] = v := by
    rw [List.getElem?_eq_getElem hR] at hv
    exact Option.some.inj hv
  obtain ⟨L', rfl⟩ : ∃ m, L = m + 1 := ⟨L - 1, by omega⟩
  simp only [Nat.add_sub_cancel]
  have hdc : D.drop R = v :: D.drop (R + 1) := by
    rw [List.drop_eq_getElem_cons hR, hveq]
  rw [rotTake, rotTake, hdc, List.cons_append, List.take_succ_cons]
  congr 1
  by_cases hc : R + 1 < D.length
  · rw [Nat.mod_eq_of_lt hc, List.take_append_eq_append_take,
      List.take_append_eq_append_take, List.take_take, List.take_take]
    have e : min (L' - (D.drop (R + 1)).length) R
        = min (L' - (D.drop (R + 1)).length) (R + 1) := by
      simp only [List.length_drop]
      omega
    rw [e]
  · have hc2 : R + 1 = D.length := by omega
    have h1 : (R + 1) % D.length = 0 := by
      rw [hc2, Nat.mod_self]
    rw [h1, List.drop_zero, List.take_zero, List.append_nil, hc2, List.drop_length,
      List.nil_append, List.take_take]
    have e : min L' R = L' := by omega
    rw [e]

theorem rotTake_drop (D : List α) (R L k : Nat) (hR : R < D.length)
    (hL : L ≤ D.length) (hk : k ≤ L) :
    rotTake D ((R + k) % D.length) (L - k) = (rotTake D R L).drop k := by
  induction k with
  | zero => rw [Nat.add_zero, Nat.mod_eq_of_lt hR, Nat.sub_zero, List.drop_zero]
  | succ k ih =>
    have hk' : k ≤ L := by omega
    have hC : 0 < D.length := by omega
    have hR' : (R + k) % D.length < D.length := Nat.mod_lt _ hC
    rw [← List.drop_drop, ← ih hk',
      rotTake_cons D ((R + k) % D.length) (L - k) (D.get ⟨(R + k) % D.length, hR'⟩)
        (by rw [List.getElem?_eq_getElem hR', List.get_eq_getElem]) (by omega)
        (by omega)]
    have e1 : (R + (k + 1)) % D.length = ((R + k) % D.length + 1) % D.length := by
      rw [Nat.mod_add_mod, ← Nat.add_assoc]
    have e2 : L - (k + 1) = L - k - 1 := by omega
    rw [e1, e2]
    simp

theorem dequeue_empty (z : α) (q : RingQueue α) (h : q.len = 0) :
    dequeue z q = some ((z, false), q) := by
  simp [dequeue, h]

theorem dequeue_spec_pos (z : α) (q : RingQueue α) (hwf : WF q) (hinv : Inv q)
    (h0 : 0 < q.len) :
    ∃ v q', dequeue z q = some ((v, true), q') ∧ WF q' ∧ Inv q' ∧
      contents q = v :: contents q' ∧ q'.cap = q.cap ∧ q'.len = q.len - 1 ∧
      q'.data = q.data := by
  obtain ⟨hL, hRd, hWd⟩ := hwf
  have hwfq : WF q := ⟨hL, hRd, hWd⟩
  have hcl : q.cap = q.data.length := rfl
  have hcap : 0 < q.cap := by omega
  have hR : q.ridx < q.data.length := by rcases hRd with h | h <;> omega
  have hv : q.data[q.ridx]? = some (q.data.get ⟨q.ridx, hR⟩) := by
    rw [List.getElem?_eq_getElem hR, List.get_eq_getElem]
  set v := q.data.get ⟨q.ridx, hR⟩ with hvdef
  set q2 : RingQueue α := ⟨q.data, q.len - 1, (q.ridx + 1) % q.cap, q.widx⟩ with hq2
  have heq : dequeue z q = some ((v, true), q2) := by
    rw [hq2]
    simp only [dequeue]
    rw [if_pos h0, hv]
  have hwf2 : WF q2 := by
    refine ⟨?_, ?_, ?_⟩
    · show q.len - 1 ≤ q.cap
      omega
    · show (q.ridx + 1) % q.cap < q.cap ∨ (q.ridx + 1) % q.cap = 0
      left
      exact Nat.mod_lt _ hcap
    · exact hWd
  have hinv2 : Inv q2 := by
    intro hp
    show q.widx = ((q.ridx + 1) % q.cap + (q.len - 1)) % q.cap
    rw [Nat.mod_add_mod, hinv hcap]
    congr 1
    omega
  have hcont : contents q = v :: contents q2 := by
    rw [contents_eq_rotTake q hwfq, contents_eq_rotTake q2 hwf2]
    show rotTake q.data q.ridx q.len
      = v :: rotTake q.data ((q.ridx + 1) % q.cap) (q.len - 1)
    rw [hcl]
    exact rotTake_cons q.data q.ridx q.len v hv h0 (by omega)
  exact ⟨v, q2, heq, hwf2, hinv2, hcont, rfl, rfl, rfl⟩

theorem dequeueMany_spec (z : α) (q : RingQueue α) (n : Nat) (hwf : WF q)
    (hinv : Inv q) (hcap : 0 < q.cap) :
    ∃ q', dequeueMany z q n = some ((contents q).take n, q') ∧ WF q' ∧ Inv q' ∧
      contents q' = (contents q).drop n ∧ q'.cap = q.cap ∧
      q'.len = q.len - min n q.len ∧ q'.data = q.data ∧ q'.widx = q.widx := by
  have hl1 := length_ds_fst q hwf
  have hl2 := length_ds_snd q hwf
  have hlc := length_contents q hwf
  obtain ⟨hL, hRd, hWd⟩ := hwf
  have hwfq : WF q := ⟨hL, hRd, hWd⟩
  have hcl : q.cap = q.data.length := rfl
  have hR : q.ridx < q.cap := by rcases hRd with h | h <;> omega
  set c1 := (getDataSlices q).1 with hc1
  set c2 := (getDataSlices q).2 with hc2
  have hcont : contents q = c1 ++ c2 := rfl
  set nn1 := goCopyN (List.replicate n z) c1 with hnn1def
  have hnn1 : nn1 = min n c1.length := by
    rw [hnn1def, goCopyN, List.length_replicate]
  set v1 := goCopy (List.replicate n z) c1 with hv1def
  have hv1 : v1 = c1.take n ++ List.replicate (n - c1.length) z := by
    rw [hv1def, goCopy, List.length_replicate, List.drop_replicate]
  have hv1len : v1.length = n := by
    rw [hv1def, goCopy_length, List.length_replicate]
  set nn := nn1 + goCopyN (v1.drop nn1) c2 with hnndef
  have hnn : nn = min n q.len := by
    rw [hnndef, goCopyN, List.length_drop, hv1len, hnn1]
    omega
  set v2 := writeAt v1 nn1 c2 with hv2def
  have hv2take : v2.take nn = (contents q).take n := by
    by_cases hcase : n ≤ c1.length
    · have e1 : nn1 = n := by omega
      have e2 : nn = n := by omega
      have hv1a : v1 = c1.take n := by
        rw [hv1]
        have e3 : n - c1.length = 0 := by omega
        rw [e3]
        simp
      rw [hv2def, writeAt, hv1a, e1, e2, List.take_take, Nat.min_self,
        List.drop_eq_nil_of_le (by simp)]
      have e4 : goCopy [] c2 = [] := by
        simp [goCopy]
      rw [e4, List.append_nil, List.take_take, Nat.min_self, hcont,
        List.take_append_of_le_length hcase]
    · have e1 : nn1 = c1.length := by omega
      have e2 : nn = c1.length + min (n - c1.length) c2.length := by omega
      have hv1d : v1.drop nn1 = List.replicate (n - c1.length) z := by
        rw [hv1, e1,
          List.drop_left' (show (c1.take n).length = c1.length from by simp; omega)]
      have hv1t : v1.take nn1 = c1 := by
        rw [hv1, e1,
          List.take_left' (show (c1.take n).length = c1.length from by simp; omega)]
        exact List.take_of_length_le (by omega)
      rw [hv2def, writeAt, hv1d, hv1t, e2]
      rw [goCopy, List.length_replicate, List.drop_replicate, List.take_append]
      rw [List.take_append_of_le_length (by simp), List.take_take]
      have e5 : min (min (n - c1.length) c2.length) (n - c1.length)
          = min (n - c1.length) c2.length := by omega
      rw [e5, hcont, List.take_append_eq_append_take,
        List.take_of_length_le (show c1.length ≤ n from by omega)]
      congr 1
      rw [List.take_eq_take]
      omega
  set q2 : RingQueue α := ⟨q.data, q.len - nn, (q.ridx + nn) % q.cap, q.widx⟩ with hq2
  have heq : dequeueMany z q n = some (v2.take nn, q2) := by
    rw [hq2]
    simp only [dequeueMany]
    rw [← hc1, ← hc2, ← hnn1def, ← hv1def, ← hnndef, ← hv2def, if_neg (by omega)]
  have hwf2 : WF q2 := by
    refine ⟨?_, ?_, ?_⟩
    · show q.len - nn ≤ q.cap
      omega
    · show (q.ridx + nn) % q.cap < q.cap ∨ (q.ridx + nn) % q.cap = 0
      left
      exact Nat.mod_lt _ hcap
    · exact hWd
  have hinv2 : Inv q2 := by
    intro hp
    show q.widx = ((q.ridx + nn) % q.cap + (q.len - nn)) % q.cap
    rw [Nat.mod_add_mod, hinv hcap]
    congr 1
    omega
  have hcont2 : contents q2 = (contents q).drop n := by
    rw [contents_eq_rotTake q2 hwf2]
    show rotTake q.data ((q.ridx + nn) % q.cap) (q.len - nn) = (contents q).drop n
    rw [hcl, rotTake_drop q.data q.ridx q.len nn (by omega) (by omega) (by omega),
      ← contents_eq_rotTake q hwfq, hnn]
    rcases Nat.le_total n q.len with h | h
    · rw [Nat.min_eq_left h]
    · rw [Nat.min_eq_right h, List.drop_eq_nil_of_le (by omega),
        List.drop_eq_nil_of_le (by omega)]
  refine ⟨q2, ?_, hwf2, hinv2, hcont2, rfl, ?_, rfl, rfl⟩
  · rw [heq, hv2take]
  · show q.len - nn = q.len - min n q.len
    rw [hnn]

theorem dequeueManyInto_spec (q : RingQueue α) (dest : GoSlice α) (n : Nat)
    (hwf : WF q) (hinv : Inv q) (hcap : 0 < q.cap) (hn : n ≤ dest.buf.length) :
    ∃ q' d', dequeueManyInto q dest n = some (min n q.len, q', d') ∧ WF q' ∧
      Inv q' ∧ contents q' = (contents q).drop n ∧ q'.cap = q.cap ∧
      q'.len = q.len - min n q.len ∧ q'.data = q.data ∧ q'.widx = q.widx ∧
      d'.buf = (contents q).take n ++ dest.buf.drop (min n q.len) ∧
      d'.slen = dest.slen := by
  have hl1 := length_ds_fst q hwf
  have hl2 := length_ds_snd q hwf
  have hlc := length_contents q hwf
  obtain ⟨hL, hRd, hWd⟩ := hwf
  have hwfq : WF q := ⟨hL, hRd, hWd⟩
  have hcl : q.cap = q.data.length := rfl
  have hR : q.ridx < q.cap := by rcases hRd with h | h <;> omega
  set c1 := (getDataSlices q).1 with hc1
  set c2 := (getDataSlices q).2 with hc2
  have hcont : contents q = c1 ++ c2 := rfl
  set k1 := goCopyN (dest.buf.take n) c1 with hk1def
  have hk1 : k1 = min n c1.length := by
    rw [hk1def, goCopyN, List.length_take]
    omega
  set b1 := writeAt dest.buf 0 (c1.take n) with hb1def
  have hb1 : b1 = c1.take n ++ dest.buf.drop k1 := by
    rw [hb1def, writeAt_zero, goCopy,
      List.take_of_length_le (show (c1.take n).length ≤ dest.buf.length from by
        simp only [List.length_take]; omega),
      List.length_take, ← hk1]
  have hb1len : b1.length = dest.buf.length := by
    rw [hb1def, writeAt_length]
  set k2 := goCopyN ((b1.drop k1).take (n - k1)) c2 with hk2def
  have hk2 : k2 = min (n - k1) c2.length := by
    rw [hk2def, goCopyN, List.length_take, List.length_drop, hb1len]
    omega
  have hnn : k1 + k2 = min n q.len := by omega
  set b2 := writeAt b1 k1 (c2.take (n - k1)) with hb2def
  have hb2 : b2 = (contents q).take n ++ dest.buf.drop (k1 + k2) := by
    rw [hb2def, writeAt, hb1,
      List.take_left' (show (c1.take n).length = k1 from by
        simp only [List.length_take]; omega),
      List.drop_left' (show (c1.take n).length = k1 from by
        simp only [List.length_take]; omega),
      goCopy,
      List.take_of_length_le (show (c2.take (n - k1)).length ≤
        (dest.buf.drop k1).length from by
        simp only [List.length_take, List.length_drop]; omega),
      List.length_take, List.drop_drop, ← hk2, ← List.append_assoc]
    congr 1
    rw [hcont, List.take_append_eq_append_take]
    congr 1
    rw [List.take_eq_take]
    omega
  set q2 : RingQueue α := ⟨q.data, q.len - (k1 + k2), (q.ridx + (k1 + k2)) % q.cap,
    q.widx⟩ with hq2
  have heq : dequeueManyInto q dest n = some (k1 + k2, q2, ⟨b2, dest.slen⟩) := by
    rw [hq2]
    simp only [dequeueManyInto]
    rw [if_pos hn, ← hc1, ← hc2, ← hk1def, ← hb1def, ← hk2def, ← hb2def,
      if_neg (by omega)]
  have hwf2 : WF q2 := by
    refine ⟨?_, ?_, ?_⟩
    · show q.len - (k1 + k2) ≤ q.cap
      omega
    · show (q.ridx + (k1 + k2)) % q.cap < q.cap ∨ (q.ridx + (k1 + k2)) % q.cap = 0
      left
      exact Nat.mod_lt _ hcap
    · exact hWd
  have hinv2 : Inv q2 := by
    intro hp
    show q.widx = ((q.ridx + (k1 + k2)) % q.cap + (q.len - (k1 + k2))) % q.cap
    rw [Nat.mod_add_mod, hinv hcap]
    congr 1
    omega
  have hcont2 : contents q2 = (contents q).drop n := by
    rw [contents_eq_rotTake q2 hwf2]
    show rotTake q.data ((q.ridx + (k1 + k2)) % q.cap) (q.len - (k1 + k2))
      = (contents q).drop n
    rw [hcl, rotTake_drop q.data q.ridx q.len (k1 + k2) (by omega) (by omega)
      (by omega), ← contents_eq_rotTake q hwfq, hnn]
    rcases Nat.le_total n q.len with h | h
    · rw [Nat.min_eq_left h]
    · rw [Nat.min_eq_right h, List.drop_eq_nil_of_le (by omega),
        List.drop_eq_nil_of_le (by omega)]
  refine ⟨q2, ⟨b2, dest.slen⟩, ?_, hwf2, hinv2, hcont2, rfl, ?_, rfl, rfl, ?_, rfl⟩
  · rw [heq, hnn]
  · show q.len - (k1 + k2) = q.len - min n q.len
    rw [hnn]
  · show b2 = (contents q).take n ++ dest.buf.drop (min n q.len)
    rw [hb2, hnn]

theorem clone_spec (z : α) (q : RingQueue α) (hwf : WF q) :
    (clone z q).cap = q.cap ∧ (clone z q).len = q.len ∧ (clone z q).ridx = 0 ∧
    (clone z q).widx = q.widx ∧
    (clone z q).data = contents q ++ List.replicate (q.cap - q.len) z := by
  have hl1 := length_ds_fst q hwf
  have hl2 := length_ds_snd q hwf
  obtain ⟨hL, hRd, hWd⟩ := hwf
  have hcl : q.cap = q.data.length := rfl
  have hdata : (clone z q).data
      = contents q ++ List.replicate (q.cap - q.len) z := by
    show writeAt (goCopy (List.replicate q.cap z) (getDataSlices q).1)
      (goCopyN (List.replicate q.cap z) (getDataSlices q).1) (getDataSlices q).2
      = contents q ++ List.replicate (q.cap - q.len) z
    rw [goCopyN, List.length_replicate]
    have hk : min q.cap (getDataSlices q).1.length = (getDataSlices q).1.length := by
      omega
    rw [hk, goCopy_of_le (by simp; omega), List.drop_replicate,
      writeAt_of_le (by simp; omega), List.take_left, List.drop_append_eq_append_drop,
      List.drop_replicate, List.drop_eq_nil_of_le (by omega)]
    simp only [contents, List.nil_append, List.append_assoc]
    congr 3
    omega
  refine ⟨?_, rfl, rfl, rfl, hdata⟩
  show (clone z q).data.length = q.data.length
  rw [hdata, List.length_append, List.length_replicate, length_contents q ⟨hL, hRd, hWd⟩]
  omega

theorem new_wf (z : α) (c : Nat) : WF (new z c) := by
  refine ⟨?_, Or.inr rfl, Or.inr rfl⟩
  show 0 ≤ (new z c).cap
  exact Nat.zero_le _

theorem new_inv (z : α) (c : Nat) : Inv (new z c) := by
  intro h
  show 0 = (0 + 0) % (new z c).cap
  simp

theorem new_cap (z : α) (c : Nat) : (new z c).cap = c := by
  show (List.replicate c z).length = c
  exact List.length_replicate c z

theorem new_contents (z : α) (c : Nat) : contents (new z c) = [] := by
  simp [contents, getDataSlices, new]

theorem clear_inv (q : RingQueue α) : Inv (clear q) := by
  intro h
  show 0 = (0 + 0) % (clear q).cap
  simp

theorem release_inv (q : RingQueue α) : Inv (release q) := by
  intro h
  show 0 = (0 + 0) % (release q).cap
  simp

theorem queue_invOpt (z v : α) (q : RingQueue α) (hwf : WF q) (hinv : Inv q) :
    invOpt (queue z q v) := by
  obtain ⟨q', heq, _, hinv', _⟩ := queue_spec z v q hwf hinv
  rw [heq]
  exact hinv'

theorem queueMany_invOpt (z : α) (q : RingQueue α) (vs : List α) (hwf : WF q)
    (hinv : Inv q) : invOpt (queueMany z q vs) := by
  by_cases hc : (ensureFreeSpace z q vs.length).cap = 0
  · rw [queueMany_none z q vs hc]
    trivial
  · obtain ⟨q', heq, _, hinv', _⟩ := queueMany_spec z q vs hwf hinv (by omega)
    rw [heq]
    exact hinv'

theorem dequeue_invOpt (z : α) (q : RingQueue α) (hwf : WF q) (hinv : Inv q) :
    invOpt ((dequeue z q).map (fun r => r.2)) := by
  rcases Nat.eq_zero_or_pos q.len with h | h
  · rw [dequeue_empty z q h]
    exact hinv
  · obtain ⟨v, q', heq, _, hinv', _⟩ := dequeue_spec_pos z q hwf hinv h
    rw [heq]
    exact hinv'

theorem dequeueMany_invOpt (z : α) (q : RingQueue α) (n : Nat) (hwf : WF q)
    (hinv : Inv q) : invOpt ((dequeueMany z q n).map (fun r => r.2)) := by
  by_cases hcap : 0 < q.cap
  · obtain ⟨q', heq, _, hinv', _⟩ := dequeueMany_spec z q n hwf hinv hcap
    rw [heq]
    exact hinv'
  · have hnone : dequeueMany z q n = none := by
      simp only [dequeueMany]
      rw [if_pos (by omega)]
    rw [hnone]
    trivial

theorem dequeueManyInto_invOpt (q : RingQueue α) (dest : GoSlice α) (n : Nat)
    (hwf : WF q) (hinv : Inv q) :
    invOpt ((dequeueManyInto q dest n).map (fun r => r.2.1)) := by
  by_cases hn : n ≤ dest.buf.length
  · by_cases hcap : 0 < q.cap
    · obtain ⟨q', d', heq, _, hinv', _⟩ := dequeueManyInto_spec q dest n hwf hinv hcap hn
      rw [heq]
      exact hinv'
    · have hnone : dequeueManyInto q dest n = none := by
        simp only [dequeueManyInto]
        rw [if_pos hn, if_pos (by omega)]
      rw [hnone]
      trivial
  · have hnone : dequeueManyInto q dest n = none := by
      simp only [dequeueManyInto]
      rw [if_neg hn]
    rw [hnone]
    trivial

theorem inreaseWriteIndex_invOpt (z : α) (q : RingQueue α) (n : Nat) (hwf : WF q)
    (hinv : Inv q) : invOpt (inreaseWriteIndex z q n) := by
  have hwf1 := ensure_wf z q n hwf
  have hinv1 := ensure_inv z q n hwf hinv
  set q1 := ensureFreeSpace z q n with hq1
  by_cases hc : q1.cap = 0
  · have hnone : inreaseWriteIndex z q n = none := by
      simp only [inreaseWriteIndex]
      rw [← hq1, if_pos hc]
    rw [hnone]
    trivial
  · have heq : inreaseWriteIndex z q n
        = some ⟨q1.data, q1.len + n, q1.ridx, (q1.widx + n) % q1.cap⟩ := by
      simp only [inreaseWriteIndex]
      rw [← hq1, if_neg hc]
    rw [heq]
    intro hp
    show (q1.widx + n) % q1.cap = (q1.ridx + (q1.len + n)) % q1.cap
    rw [hinv1 (by omega), Nat.mod_add_mod]
    congr 1
    omega

theorem inreaseReadIndex_invOpt (q : RingQueue α) (n : Nat) (_hwf : WF q)
    (hinv : Inv q) : invOpt ((inreaseReadIndex q n).map (fun r => r.2)) := by
  by_cases hc : q.cap = 0
  · have hnone : inreaseReadIndex q n = none := by
      simp only [inreaseReadIndex]
      rw [if_pos hc]
    rw [hnone]
    trivial
  · have heq : inreaseReadIndex q n = some (min q.len n,
        ⟨q.data, q.len - min q.len n, (q.ridx + min q.len n) % q.cap, q.widx⟩) := by
      simp only [inreaseReadIndex]
      rw [if_neg hc]
    rw [heq]
    intro hp
    show q.widx = ((q.ridx + min q.len n) % q.cap + (q.len - min q.len n)) % q.cap
    rw [Nat.mod_add_mod, hinv (by omega)]
    congr 1
    omega

theorem clone_inv (z : α) (q : RingQueue α) (hwf : WF q) (hinv : Inv q)
    (hr : q.ridx = 0) : Inv (clone z q) := by
  obtain ⟨hcap, hlen, hridx, hwidx, hdata⟩ := clone_spec z q hwf
  intro hp
  rw [hcap] at hp
  rw [hwidx, hridx, hlen, hcap, hinv hp, hr]

theorem qStep_sim (z : α) (q : RingQueue α) (op : Op α) (hwf : WF q) (hinv : Inv q)
    (hcap : 0 < q.cap) :
    ∃ q', qStep z q op = some ((refStep z (contents q) op).1, q') ∧
      contents q' = (refStep z (contents q) op).2 ∧ WF q' ∧ Inv q' ∧ 0 < q'.cap := by
  cases op with
  | push v =>
    obtain ⟨q', heq, hwf', hinv', hcont', hcaple, hcappos, hlen⟩ :=
      queue_spec z v q hwf hinv
    refine ⟨q', ?_, ?_, hwf', hinv', hcappos⟩
    · simp [qStep, refStep, heq]
    · simp only [refStep]
      exact hcont'
  | pushMany vs =>
    have hpos : 0 < (ensureFreeSpace z q vs.length).cap := by
      have := ensure_cap_ge z q vs.length hwf
      omega
    obtain ⟨q', heq, hwf', hinv', hcont', hcaple, hcappos, hlen⟩ :=
      queueMany_spec z q vs hwf hinv hpos
    refine ⟨q', ?_, ?_, hwf', hinv', hcappos⟩
    · simp [qStep, refStep, heq]
    · simp only [refStep]
      exact hcont'
  | pop =>
    rcases Nat.eq_zero_or_pos q.len with h0 | h0
    · have hce : contents q = [] := by
        have hl := length_contents q hwf
        rw [h0] at hl
        exact List.eq_nil_of_length_eq_zero hl
      refine ⟨q, ?_, ?_, hwf, hinv, hcap⟩
      · simp [qStep, dequeue_empty z q h0, refStep, hce]
      · simp [refStep, hce]
    · obtain ⟨v, q', heq, hwf', hinv', hcont', hcapeq, hlen, hdata⟩ :=
      dequeue_spec_pos z q hwf hinv h0
      refine ⟨q', ?_, ?_, hwf', hinv', by rw [hcapeq]; exact hcap⟩
      · simp [qStep, heq, refStep, hcont']
      · simp [refStep, hcont']
  | popMany n =>
    obtain ⟨q', heq, hwf', hinv', hcont', hcapeq, hlen, hdata, hwidx⟩ :=
      dequeueMany_spec z q n hwf hinv hcap
    refine ⟨q', ?_, ?_, hwf', hinv', by rw [hcapeq]; exact hcap⟩
    · simp [qStep, heq, refStep]
    · simp [refStep, hcont']

theorem qRun_sim (z : α) (ops : List (Op α)) :
    ∀ q : RingQueue α, WF q → Inv q → 0 < q.cap →
    ∃ qf, qRun z q ops = some ((refRun z (contents q) ops).1, qf) ∧
      contents qf = (refRun z (contents q) ops).2 ∧ WF qf ∧ Inv qf ∧ 0 < qf.cap := by
  induction ops with
  | nil =>
    intro q hwf hinv hcap
    exact ⟨q, rfl, rfl, hwf, hinv, hcap⟩
  | cons op ops ih =>
    intro q hwf hinv hcap
    obtain ⟨q1, hstep, hcont1, hwf1, hinv1, hcap1⟩ := qStep_sim z q op hwf hinv hcap
    obtain ⟨qf, hrun, hcontf, hwff, hinvf, hcapf⟩ := ih q1 hwf1 hinv1 hcap1
    refine ⟨qf, ?_, ?_, hwff, hinvf, hcapf⟩
    · simp only [qRun, refRun]
      rw [hstep, Option.some_bind, ← hcont1, hrun, Option.map_some']
    · simp only [refRun]
      rw [← hcont1]
      exact hcontf

/-- C1 (counterexample): on a zero-capacity buffer (`New(0)`), a single
`DequeueMany(1)` panics (Go divide-by-zero in `q.ridx %= q.cap`), so the run
produces no outputs, while the reference model yields an empty pop result. -/
theorem c1_counterexample :
    qRun (0 : Nat) (new 0 0) [Op.popMany 1] = none ∧
    (refRun (0 : Nat) (contents (new (0 : Nat) 0)) [Op.popMany 1]).1
      = [OpOut.popManyOut []] := by
  decide

/-- C1 (amended): for every well-formed buffer satisfying the ring invariant
whose capacity is positive, every sequence of interleaved
Queue/QueueMany/Dequeue/DequeueMany operations runs without panic, the
outputs equal those of the plain ordered reference sequence, and the final
observable contents (concatenation of the `GetDataSlices` views) equal the
reference sequence's final state. -/
theorem c1_model_equivalence (z : α) (q : RingQueue α) (ops : List (Op α))
    (hwf : WF q) (hinv : Inv q) (hcap : 0 < q.cap) :
    (qRun z q ops).map (fun r => (r.1, contents r.2))
      = some (refRun z (contents q) ops) := by
  obtain ⟨qf, hrun, hcont, _, _, _⟩ := qRun_sim z ops q hwf hinv hcap
  rw [hrun, Option.map_some', hcont]

/-- C1 (witness): the model equivalence at a concrete buffer and workload. -/
theorem c1_model_equivalence_witness :
    WF (new (0 : Nat) 2) ∧ Inv (new (0 : Nat) 2) ∧ 0 < (new (0 : Nat) 2).cap ∧
    (qRun 0 (new (0 : Nat) 2)
        [Op.push 7, Op.pushMany [8, 9], Op.pop, Op.popMany 2]).map
        (fun r => (r.1, contents r.2))
      = some (refRun 0 (contents (new (0 : Nat) 2))
          [Op.push 7, Op.pushMany [8, 9], Op.pop, Op.popMany 2]) :=
  ⟨by decide, by decide, by decide,
    c1_model_equivalence 0 (new 0 2)
      [Op.push 7, Op.pushMany [8, 9], Op.pop, Op.popMany 2]
      (by decide) (by decide) (by decide)⟩

/-- C2 (counterexample): `Clone` of the well-formed, invariant-satisfying state
with storage `[10, 20]`, `len = 1`, `ridx = 1`, `widx = 0` yields capacity `2`,
not `len = 1`, and write index `0`, not `len mod max(cap, 1) = 1`. -/
theorem c2_counterexample :
    WF (⟨[10, 20], 1, 1, 0⟩ : RingQueue Nat) ∧
    Inv (⟨[10, 20], 1, 1, 0⟩ : RingQueue Nat) ∧
    (clone 0 (⟨[10, 20], 1, 1, 0⟩ : RingQueue Nat)).cap
      ≠ (⟨[10, 20], 1, 1, 0⟩ : RingQueue Nat).len ∧
    (clone 0 (⟨[10, 20], 1, 1, 0⟩ : RingQueue Nat)).widx
      ≠ (⟨[10, 20], 1, 1, 0⟩ : RingQueue Nat).len
        % max (⟨[10, 20], 1, 1, 0⟩ : RingQueue Nat).cap 1 := by
  decide

/-- C2 (amended): for every well-formed buffer, `Clone` returns a buffer whose
storage block is sized to the original's capacity (not its length), holding a
copy of all live elements in logical order at physical offset `0`, with
`len` preserved, `ridx = 0`, and `widx` copied unchanged from the original. -/
theorem c2_clone_spec (z : α) (q : RingQueue α) (hwf : WF q) :
    (clone z q).cap = q.cap ∧ (clone z q).len = q.len ∧ (clone z q).ridx = 0 ∧
    (clone z q).widx = q.widx ∧ (clone z q).data.take q.len = contents q := by
  obtain ⟨hcap, hlen, hridx, hwidx, hdata⟩ := clone_spec z q hwf
  refine ⟨hcap, hlen, hridx, hwidx, ?_⟩
  rw [hdata, List.take_append_of_le_length (le_of_eq (length_contents q hwf).symm),
    ← length_contents q hwf, List.take_length]

/-- C2 (witness): the amended clone description at a concrete wrapped state. -/
theorem c2_clone_spec_witness :
    WF (⟨[3, 4, 5], 2, 1, 0⟩ : RingQueue Nat) ∧
    ((clone 0 (⟨[3, 4, 5], 2, 1, 0⟩ : RingQueue Nat)).cap
        = (⟨[3, 4, 5], 2, 1, 0⟩ : RingQueue Nat).cap ∧
      (clone 0 (⟨[3, 4, 5], 2, 1, 0⟩ : RingQueue Nat)).len
        = (⟨[3, 4, 5], 2, 1, 0⟩ : RingQueue Nat).len ∧
      (clone 0 (⟨[3, 4, 5], 2, 1, 0⟩ : RingQueue Nat)).ridx = 0 ∧
      (clone 0 (⟨[3, 4, 5], 2, 1, 0⟩ : RingQueue Nat)).widx
        = (⟨[3, 4, 5], 2, 1, 0⟩ : RingQueue Nat).widx ∧
      (clone 0 (⟨[3, 4, 5], 2, 1, 0⟩ : RingQueue Nat)).data.take
          (⟨[3, 4, 5], 2, 1, 0⟩ : RingQueue Nat).len
        = contents (⟨[3, 4, 5], 2, 1, 0⟩ : RingQueue Nat)) :=
  ⟨by decide, c2_clone_spec 0 (⟨[3, 4, 5], 2, 1, 0⟩ : RingQueue Nat) (by decide)⟩

/-- C3 (counterexample): with a destination slice of capacity `1` and `n = 2`,
`DequeueManyInto` panics (Go slice-bounds on `dest[:n]`) instead of copying
`min(2, 1, 1) = 1` element and returning `1`. -/
theorem c3_counterexample :
    WF (⟨[7], 1, 0, 0⟩ : RingQueue Nat) ∧ Inv (⟨[7], 1, 0, 0⟩ : RingQueue Nat) ∧
    min 2 (min (⟨[0], 1⟩ : GoSlice Nat).buf.length
      (⟨[7], 1, 0, 0⟩ : RingQueue Nat).len) = 1 ∧
    dequeueManyInto (⟨[7], 1, 0, 0⟩ : RingQueue Nat) ⟨[0], 1⟩ 2 = none := by
  decide

/-- C3 (amended): for every well-formed invariant-satisfying buffer with
positive capacity and every `n ≤ cap(dest)`, `DequeueManyInto(dest, n)` copies
exactly `min(n, cap(dest), len)` front elements into `dest` in logical order,
removes exactly that many from the queue, and returns that count; for
`n > cap(dest)` (or on a zero-capacity buffer) the Go code panics instead. -/
theorem c3_dequeueManyInto_spec (q : RingQueue α) (dest : GoSlice α) (n : Nat)
    (hwf : WF q) (hinv : Inv q) (hcap : 0 < q.cap) (hn : n ≤ dest.buf.length) :
    (dequeueManyInto q dest n).map (fun r => r.1)
      = some (min n (min dest.buf.length q.len)) ∧
    (dequeueManyInto q dest n).map (fun r => r.2.2.buf)
      = some ((contents q).take (min n q.len) ++ dest.buf.drop (min n q.len)) ∧
    (dequeueManyInto q dest n).map (fun r => contents r.2.1)
      = some ((contents q).drop (min n q.len)) ∧
    (dequeueManyInto q dest n).map (fun r => r.2.1.len)
      = some (q.len - min n q.len) := by
  obtain ⟨q', d', heq, hwf', hinv', hcont', hcapeq, hlen', hdata', hwidx', hbuf',
    hslen'⟩ := dequeueManyInto_spec q dest n hwf hinv hcap hn
  rw [heq]
  refine ⟨?_, ?_, ?_, ?_⟩
  · simp only [Option.map_some']
    congr 1
    omega
  · simp only [Option.map_some']
    rw [hbuf']
    congr 2
    rw [List.take_eq_take, length_contents q hwf]
    omega
  · simp only [Option.map_some']
    rw [hcont']
    congr 1
    rcases Nat.le_total n q.len with h | h
    · rw [Nat.min_eq_left h]
    · rw [Nat.min_eq_right h,
        List.drop_eq_nil_of_le (by rw [length_contents q hwf]; omega),
        List.drop_eq_nil_of_le (by rw [length_contents q hwf])]
  · simp only [Option.map_some', hlen']

/-- C3 (witness): the amended description at a concrete wrapped buffer. -/
theorem c3_dequeueManyInto_spec_witness :
    WF (⟨[1, 2, 3, 4], 3, 2, 1⟩ : RingQueue Nat) ∧
    Inv (⟨[1, 2, 3, 4], 3, 2, 1⟩ : RingQueue Nat) ∧
    0 < (⟨[1, 2, 3, 4], 3, 2, 1⟩ : RingQueue Nat).cap ∧
    2 ≤ (⟨[0, 0], 1⟩ : GoSlice Nat).buf.length ∧
    ((dequeueManyInto (⟨[1, 2, 3, 4], 3, 2, 1⟩ : RingQueue Nat) ⟨[0, 0], 1⟩ 2).map
        (fun r => r.1)
      = some (min 2 (min (⟨[0, 0], 1⟩ : GoSlice Nat).buf.length
          (⟨[1, 2, 3, 4], 3, 2, 1⟩ : RingQueue Nat).len)) ∧
    (dequeueManyInto (⟨[1, 2, 3, 4], 3, 2, 1⟩ : RingQueue Nat) ⟨[0, 0], 1⟩ 2).map
        (fun r => r.2.2.buf)
      = some ((contents (⟨[1, 2, 3, 4], 3, 2, 1⟩ : RingQueue Nat)).take
            (min 2 (⟨[1, 2, 3, 4], 3, 2, 1⟩ : RingQueue Nat).len)
          ++ (⟨[0, 0], 1⟩ : GoSlice Nat).buf.drop
            (min 2 (⟨[1, 2, 3, 4], 3, 2, 1⟩ : RingQueue Nat).len)) ∧
    (dequeueManyInto (⟨[1, 2, 3, 4], 3, 2, 1⟩ : RingQueue Nat) ⟨[0, 0], 1⟩ 2).map
        (fun r => contents r.2.1)
      = some ((contents (⟨[1, 2, 3, 4], 3, 2, 1⟩ : RingQueue Nat)).drop
          (min 2 (⟨[1, 2, 3, 4], 3, 2, 1⟩ : RingQueue Nat).len)) ∧
    (dequeueManyInto (⟨[1, 2, 3, 4], 3, 2, 1⟩ : RingQueue Nat) ⟨[0, 0], 1⟩ 2).map
        (fun r => r.2.1.len)
      = some ((⟨[1, 2, 3, 4], 3, 2, 1⟩ : RingQueue Nat).len
          - min 2 (⟨[1, 2, 3, 4], 3, 2, 1⟩ : RingQueue Nat).len)) :=
  ⟨by decide, by decide, by decide, by decide,
    c3_dequeueManyInto_spec (⟨[1, 2, 3, 4], 3, 2, 1⟩ : RingQueue Nat) ⟨[0, 0], 1⟩ 2
      (by decide) (by decide) (by decide) (by decide)⟩

/-- C4: on the zero-capacity state produced by `New(0)` (identical to the state
after `Release`), `QueueMany()` with no arguments, `InreaseWriteIndex(0)`,
`InreaseReadIndex(n)`, `DequeueMany(n)` and `DequeueManyInto` all panic in Go
(`%= q.cap` divides by zero), modelled by `none`, contradicting the claim that
every operation terminates normally on every valid state. -/
theorem c4_zero_capacity_panics :
    queueMany (0 : Nat) (new 0 0) [] = none ∧
    inreaseWriteIndex (0 : Nat) (new 0 0) 0 = none ∧
    inreaseReadIndex (new (0 : Nat) 0) 3 = none ∧
    dequeueMany (0 : Nat) (new 0 0) 1 = none ∧
    dequeueManyInto (new (0 : Nat) 0) ⟨[0, 0], 2⟩ 1 = none ∧
    release (new (0 : Nat) 5) = new (0 : Nat) 0 := by
  decide

/-- C5: when `cap - len < n`, `EnsureFreeSpace(n)` reallocates to at least
`len + n` slots, copies the live elements to physical offset `0` in logical
order, sets `ridx = 0` and `widx` to the pre-copy length, and afterwards
`cap - len ≥ n`; when `cap - len ≥ n` already, the state is unchanged. -/
theorem c5_ensureFreeSpace_spec (z : α) (q : RingQueue α) (n : Nat) (hwf : WF q) :
    (q.cap - q.len < n →
      q.len + n ≤ (ensureFreeSpace z q n).cap ∧
      (ensureFreeSpace z q n).data.take q.len = contents q ∧
      (ensureFreeSpace z q n).ridx = 0 ∧
      (ensureFreeSpace z q n).widx = q.len ∧
      (ensureFreeSpace z q n).len = q.len ∧
      n ≤ (ensureFreeSpace z q n).cap - (ensureFreeSpace z q n).len) ∧
    (n ≤ q.cap - q.len → ensureFreeSpace z q n = q) := by
  constructor
  · intro h
    obtain ⟨h1, h2, h3⟩ := ensure_grow_fields z q n h
    have hc := ensure_grow_cap z q n hwf h
    have hd := ensure_grow_data z q n hwf h
    have hfree := ensure_free z q n hwf
    refine ⟨by omega, ?_, h2, h3, h1, hfree⟩
    rw [hd, List.take_append_of_le_length (le_of_eq (length_contents q hwf).symm),
      ← length_contents q hwf, List.take_length]
  · intro h
    unfold ensureFreeSpace
    rw [if_neg (by omega)]

/-- C5 (witness): the growth postconditions at a concrete full buffer. -/
theorem c5_ensureFreeSpace_spec_witness :
    WF (⟨[1, 2], 2, 1, 1⟩ : RingQueue Nat) ∧
    (((⟨[1, 2], 2, 1, 1⟩ : RingQueue Nat).cap
        - (⟨[1, 2], 2, 1, 1⟩ : RingQueue Nat).len < 3 →
      (⟨[1, 2], 2, 1, 1⟩ : RingQueue Nat).len + 3
        ≤ (ensureFreeSpace 0 (⟨[1, 2], 2, 1, 1⟩ : RingQueue Nat) 3).cap ∧
      (ensureFreeSpace 0 (⟨[1, 2], 2, 1, 1⟩ : RingQueue Nat) 3).data.take
          (⟨[1, 2], 2, 1, 1⟩ : RingQueue Nat).len
        = contents (⟨[1, 2], 2, 1, 1⟩ : RingQueue Nat) ∧
      (ensureFreeSpace 0 (⟨[1, 2], 2, 1, 1⟩ : RingQueue Nat) 3).ridx = 0 ∧
      (ensureFreeSpace 0 (⟨[1, 2], 2, 1, 1⟩ : RingQueue Nat) 3).widx
        = (⟨[1, 2], 2, 1, 1⟩ : RingQueue Nat).len ∧
      (ensureFreeSpace 0 (⟨[1, 2], 2, 1, 1⟩ : RingQueue Nat) 3).len
        = (⟨[1, 2], 2, 1, 1⟩ : RingQueue Nat).len ∧
      3 ≤ (ensureFreeSpace 0 (⟨[1, 2], 2, 1, 1⟩ : RingQueue Nat) 3).cap
        - (ensureFreeSpace 0 (⟨[1, 2], 2, 1, 1⟩ : RingQueue Nat) 3).len) ∧
    (3 ≤ (⟨[1, 2], 2, 1, 1⟩ : RingQueue Nat).cap
        - (⟨[1, 2], 2, 1, 1⟩ : RingQueue Nat).len →
      ensureFreeSpace 0 (⟨[1, 2], 2, 1, 1⟩ : RingQueue Nat) 3
        = (⟨[1, 2], 2, 1, 1⟩ : RingQueue Nat))) :=
  ⟨by decide, c5_ensureFreeSpace_spec 0 (⟨[1, 2], 2, 1, 1⟩ : RingQueue Nat) 3
    (by decide)⟩

/-- C6 (counterexample): the state with storage `[5, 6]`, `len = 1`,
`ridx = 1`, `widx = 0` satisfies the ring invariant, but its `Clone` violates
it (`widx = 0` while `(ridx + len) mod cap = 1`). -/
theorem c6_counterexample :
    WF (⟨[5, 6], 1, 1, 0⟩ : RingQueue Nat) ∧
    Inv (⟨[5, 6], 1, 1, 0⟩ : RingQueue Nat) ∧
    ¬ Inv (clone 0 (⟨[5, 6], 1, 1, 0⟩ : RingQueue Nat)) := by
  decide

/-- C6 (amended): the invariant `widx = (ridx + len) mod cap` (for positive
capacity) holds in the buffer returned by `New` and, for every well-formed
invariant-satisfying state, after every completing operation — Queue,
QueueMany, Dequeue, DequeueMany, DequeueManyInto, InreaseWriteIndex,
InreaseReadIndex, EnsureFreeSpace, Clear, Release — and after `Clone`
whenever the original's `ridx` is `0`; `Clone` with `ridx ≠ 0` breaks it. -/
theorem c6_inv_preservation (z v : α) (q : RingQueue α) (vs : List α) (n c : Nat)
    (dest : GoSlice α) (hwf : WF q) (hinv : Inv q) :
    Inv (new z c) ∧ invOpt (queue z q v) ∧ invOpt (queueMany z q vs) ∧
    invOpt ((dequeue z q).map (fun r => r.2)) ∧
    invOpt ((dequeueMany z q n).map (fun r => r.2)) ∧
    invOpt ((dequeueManyInto q dest n).map (fun r => r.2.1)) ∧
    invOpt (inreaseWriteIndex z q n) ∧
    invOpt ((inreaseReadIndex q n).map (fun r => r.2)) ∧
    Inv (ensureFreeSpace z q n) ∧ Inv (clear q) ∧ Inv (release q) ∧
    (q.ridx = 0 → Inv (clone z q)) :=
  ⟨new_inv z c, queue_invOpt z v q hwf hinv, queueMany_invOpt z q vs hwf hinv,
    dequeue_invOpt z q hwf hinv, dequeueMany_invOpt z q n hwf hinv,
    dequeueManyInto_invOpt q dest n hwf hinv,
    inreaseWriteIndex_invOpt z q n hwf hinv, inreaseReadIndex_invOpt q n hwf hinv,
    ensure_inv z q n hwf hinv, clear_inv q, release_inv q,
    fun hr => clone_inv z q hwf hinv hr⟩

/-- C6 (witness): invariant preservation at a concrete wrapped state. -/
theorem c6_inv_preservation_witness :
    WF (⟨[1, 2, 3], 2, 1, 0⟩ : RingQueue Nat) ∧
    Inv (⟨[1, 2, 3], 2, 1, 0⟩ : RingQueue Nat) ∧
    (Inv (new (0 : Nat) 3) ∧
      invOpt (queue 0 (⟨[1, 2, 3], 2, 1, 0⟩ : RingQueue Nat) 9) ∧
      invOpt (queueMany 0 (⟨[1, 2, 3], 2, 1, 0⟩ : RingQueue Nat) [4, 5]) ∧
      invOpt ((dequeue 0 (⟨[1, 2, 3], 2, 1, 0⟩ : RingQueue Nat)).map
        (fun r => r.2)) ∧
      invOpt ((dequeueMany 0 (⟨[1, 2, 3], 2, 1, 0⟩ : RingQueue Nat) 2).map
        (fun r => r.2)) ∧
      invOpt ((dequeueManyInto (⟨[1, 2, 3], 2, 1, 0⟩ : RingQueue Nat) ⟨[0], 1⟩ 2).map
        (fun r => r.2.1)) ∧
      invOpt (inreaseWriteIndex 0 (⟨[1, 2, 3], 2, 1, 0⟩ : RingQueue Nat) 2) ∧
      invOpt ((inreaseReadIndex (⟨[1, 2, 3], 2, 1, 0⟩ : RingQueue Nat) 2).map
        (fun r => r.2)) ∧
      Inv (ensureFreeSpace 0 (⟨[1, 2, 3], 2, 1, 0⟩ : RingQueue Nat) 2) ∧
      Inv (clear (⟨[1, 2, 3], 2, 1, 0⟩ : RingQueue Nat)) ∧
      Inv (release (⟨[1, 2, 3], 2, 1, 0⟩ : RingQueue Nat)) ∧
      ((⟨[1, 2, 3], 2, 1, 0⟩ : RingQueue Nat).ridx = 0 →
        Inv (clone 0 (⟨[1, 2, 3], 2, 1, 0⟩ : RingQueue Nat)))) :=
  ⟨by decide, by decide,
    c6_inv_preservation 0 9 (⟨[1, 2, 3], 2, 1, 0⟩ : RingQueue Nat) [4, 5] 2 3
      ⟨[0], 1⟩ (by decide) (by decide)⟩

/-- C7: on the zero-capacity empty buffer `New(0)`, `DequeueMany(5)` panics in
Go (divide by zero in `q.ridx %= q.cap`, modelled `none`) instead of returning
an empty sequence as the claim (and the function's own documentation) says,
while `Dequeue` correctly returns `ok = false`; on an empty buffer with
positive capacity `DequeueMany(5)` does return the empty sequence. -/
theorem c7_dequeueMany_zero_cap_bug :
    dequeueMany (0 : Nat) (new 0 0) 5 = none ∧
    dequeue (0 : Nat) (new 0 0) = some ((0, false), new 0 0) ∧
    dequeueMany (0 : Nat) (new 0 4) 5 = some ([], new 0 4) := by
  decide

/-- C8: for every well-formed buffer, the first data view covers physical
slots `[ridx, min(cap, ridx+len))`, the second covers `[0, overflow)` with
`overflow = len - (first view length)`, the view lengths sum to `len`, and
their concatenation is exactly the logical sequence (the wrap-around read of
`len` slots starting at `ridx`), front to back. -/
theorem c8_getDataSlices_spec (q : RingQueue α) (hwf : WF q) :
    (getDataSlices q).1 = (q.data.take (min q.cap (q.ridx + q.len))).drop q.ridx ∧
    (getDataSlices q).2
      = q.data.take (q.len - (min q.cap (q.ridx + q.len) - q.ridx)) ∧
    (getDataSlices q).1.length = min q.cap (q.ridx + q.len) - q.ridx ∧
    (getDataSlices q).1.length + (getDataSlices q).2.length = q.len ∧
    (getDataSlices q).1 ++ (getDataSlices q).2
      = (q.data.drop q.ridx ++ q.data.take q.ridx).take q.len := by
  have hl1 := length_ds_fst q hwf
  have hl2 := length_ds_snd q hwf
  have hrot := contents_eq_rotTake q hwf
  obtain ⟨hL, hRd, hWd⟩ := hwf
  have hR : q.ridx ≤ q.cap := by rcases hRd with h | h <;> omega
  refine ⟨rfl, rfl, ?_, ?_, hrot⟩
  · rw [hl1]
    omega
  · rw [hl1, hl2]
    omega

/-- C8 (witness): the view decomposition at a concrete wrapped buffer. -/
theorem c8_getDataSlices_spec_witness :
    WF (⟨[1, 2, 3, 4], 3, 2, 1⟩ : RingQueue Nat) ∧
    ((getDataSlices (⟨[1, 2, 3, 4], 3, 2, 1⟩ : RingQueue Nat)).1
        = (([1, 2, 3, 4] : List Nat).take (min 4 (2 + 3))).drop 2 ∧
      (getDataSlices (⟨[1, 2, 3, 4], 3, 2, 1⟩ : RingQueue Nat)).2
        = ([1, 2, 3, 4] : List Nat).take (3 - (min 4 (2 + 3) - 2)) ∧
      (getDataSlices (⟨[1, 2, 3, 4], 3, 2, 1⟩ : RingQueue Nat)).1.length
        = min 4 (2 + 3) - 2 ∧
      (getDataSlices (⟨[1, 2, 3, 4], 3, 2, 1⟩ : RingQueue Nat)).1.length
        + (getDataSlices (⟨[1, 2, 3, 4], 3, 2, 1⟩ : RingQueue Nat)).2.length = 3 ∧
      (getDataSlices (⟨[1, 2, 3, 4], 3, 2, 1⟩ : RingQueue Nat)).1
        ++ (getDataSlices (⟨[1, 2, 3, 4], 3, 2, 1⟩ : RingQueue Nat)).2
        = (([1, 2, 3, 4] : List Nat).drop 2 ++ ([1, 2, 3, 4] : List Nat).take 2).take 3) :=
  ⟨by decide, c8_getDataSlices_spec (⟨[1, 2, 3, 4], 3, 2, 1⟩ : RingQueue Nat)
    (by decide)⟩

/-- C9: `Clear` sets `len`, `ridx` and `widx` to `0` and leaves the storage
block and the capacity unchanged (the storage is not released). -/
theorem c9_clear_spec (q : RingQueue α) :
    (clear q).len = 0 ∧ (clear q).ridx = 0 ∧ (clear q).widx = 0 ∧
    (clear q).data = q.data ∧ (clear q).cap = q.cap :=
  ⟨rfl, rfl, rfl, rfl, rfl⟩

/-- C10: on every buffer with `len = 0`, `Dequeue` returns the zero value of
the element type together with `ok = false` and leaves the buffer state
completely unchanged. -/
theorem c10_dequeue_empty_spec (z : α) (q : RingQueue α) (h : q.len = 0) :
    dequeue z q = some ((z, false), q) :=
  dequeue_empty z q h

/-- C10 (witness): the failed pop at a concrete empty buffer. -/
theorem c10_dequeue_empty_spec_witness :
    (new (0 : Nat) 3).len = 0 ∧
    dequeue 0 (new (0 : Nat) 3) = some ((0, false), new 0 3) :=
  ⟨by decide, c10_dequeue_empty_spec 0 (new (0 : Nat) 3) (by decide)⟩

end RingQ
